import Mathlib

/-!
Verification of the paperless-rag RAG service core against its source.

The Python modules under `rag-api/app/` (retriever.py, llm.py, ingest.py,
extractors.py, main.py) are shallowly embedded below.  External services
(the vector index, the embedding model, the DMS, the LLM gateway) are
abstracted as parameters: the vector index is a ranked list of scored
chunks, the chunker/tokenizer are function parameters, and HTTP calls are
not modelled.  Python floats are modelled as rationals, Python `str` as
Lean `String` (with `len` = character count, matching Python), Python
exceptions as `Except`.  Regex character classes `\w`/`\s` are modelled at
their ASCII meaning; theorems that depend on the class carry an ASCII
hypothesis where it matters.
-/

namespace PaperlessRag

/-- Python `\s` at its ASCII meaning: the whitespace characters recognised
by `str.split`, `str.strip` and regex `\s` on ASCII text. -/
def isPySpace (c : Char) : Bool :=
  c == ' ' || c == '\t' || c == '\n' || c == '\x0d' || c == '\x0b' || c == '\x0c'

/-- Lowercase a character list (model of Python `str.lower()` on ASCII). -/
def toLowerList (l : List Char) : List Char :=
  l.map Char.toLower

/-- Accumulator-based splitter: `acc` is the current word, reversed. -/
def splitWordsAux : List Char → List Char → List (List Char)
  | acc, [] => if acc.isEmpty then [] else [acc.reverse]
  | acc, c :: rest =>
    if isPySpace c then
      if acc.isEmpty then splitWordsAux [] rest
      else acc.reverse :: splitWordsAux [] rest
    else splitWordsAux (c :: acc) rest

/-- Model of Python `str.split()`: split on whitespace runs, dropping
empty words. -/
def splitWords (l : List Char) : List (List Char) :=
  splitWordsAux [] l

/-- Model of Python `set(text.lower().split())`. -/
def wordSet (s : String) : Finset (List Char) :=
  (splitWords (toLowerList s.data)).toFinset

/-- A retrieval chunk as formatted by `retriever.search_similar_chunks`
(payload fields plus the similarity score; scores are rationals standing
for Python floats). -/
structure Chunk where
  text : String
  doc_id : Nat
  title : String
  page : Option Nat
  file_type : String
  tags : List String
  score : ℚ
  token_count : Nat
deriving DecidableEq, Repr

/-- The duplicate test inside `retriever.deduplicate_chunks`: word-set
Jaccard overlap of the lowercased texts strictly above the threshold
(guarded by `total_words > 0`, as in the source). -/
def isDupChunk (thr : ℚ) (c e : Chunk) : Bool :=
  let cw := wordSet c.text
  let ew := wordSet e.text
  let overlap := (cw ∩ ew).card
  let total := (cw ∪ ew).card
  decide (0 < total) && decide (thr < mkRat overlap total)

/-- The accumulation loop of `retriever.deduplicate_chunks`: `acc` is the
`deduplicated` list built so far; a candidate is appended when no
already-accepted chunk is too similar. -/
def dedupLoop (thr : ℚ) : List Chunk → List Chunk → List Chunk
  | acc, [] => acc
  | acc, c :: rest =>
    if acc.any (isDupChunk thr c) then dedupLoop thr acc rest
    else dedupLoop thr (acc ++ [c]) rest

/-- `retriever.deduplicate_chunks(chunks, similarity_threshold)`:
lists of length ≤ 1 are returned unchanged (early return in the source). -/
def deduplicate_chunks (chunks : List Chunk) (thr : ℚ) : List Chunk :=
  if chunks.length ≤ 1 then chunks else dedupLoop thr [] chunks

/-- The chunks newly accepted by `dedupLoop` beyond the accumulator. -/
def keptFrom (thr : ℚ) : List Chunk → List Chunk → List Chunk
  | _, [] => []
  | acc, c :: rest =>
    if acc.any (isDupChunk thr c) then keptFrom thr acc rest
    else c :: keptFrom thr (acc ++ [c]) rest

/-- Every element of a list is accepted in turn by the dedup test against
the growing accumulator. -/
def dedupAccepts (thr : ℚ) : List Chunk → List Chunk → Prop
  | _, [] => True
  | acc, c :: rest =>
    acc.any (isDupChunk thr c) = false ∧ dedupAccepts thr (acc ++ [c]) rest

theorem dedupLoop_eq (thr : ℚ) :
    ∀ (l acc : List Chunk), dedupLoop thr acc l = acc ++ keptFrom thr acc l := by
  intro l
  induction l with
  | nil => intro acc; simp [dedupLoop, keptFrom]
  | cons c rest ih =>
    intro acc
    by_cases h : acc.any (isDupChunk thr c)
    · simp [dedupLoop, keptFrom, h, ih]
    · simp only [dedupLoop, keptFrom, h]
      rw [if_neg (by simp [h]), if_neg (by simp [h]), ih (acc ++ [c])]
      simp

theorem keptFrom_sublist (thr : ℚ) :
    ∀ (l acc : List Chunk), List.Sublist (keptFrom thr acc l) l := by
  intro l
  induction l with
  | nil => intro acc; simp [keptFrom]
  | cons c rest ih =>
    intro acc
    by_cases h : acc.any (isDupChunk thr c)
    · simp only [keptFrom, h, if_true]
      exact (ih acc).cons c
    · simp only [keptFrom, h, if_false]
      exact (ih (acc ++ [c])).cons₂ c

theorem keptFrom_accepts (thr : ℚ) :
    ∀ (l acc : List Chunk), dedupAccepts thr acc (keptFrom thr acc l) := by
  intro l
  induction l with
  | nil => intro acc; simp [keptFrom, dedupAccepts]
  | cons c rest ih =>
    intro acc
    by_cases h : acc.any (isDupChunk thr c)
    · simp only [keptFrom, h, if_true]
      exact ih acc
    · simp only [keptFrom, h, if_false, dedupAccepts]
      exact ⟨by simp [h], ih (acc ++ [c])⟩

theorem accepts_keptFrom_eq (thr : ℚ) :
    ∀ (l acc : List Chunk), dedupAccepts thr acc l → keptFrom thr acc l = l := by
  intro l
  induction l with
  | nil => intro acc _; simp [keptFrom]
  | cons c rest ih =>
    intro acc h
    rcases h with ⟨h1, h2⟩
    simp only [keptFrom, h1, if_false]
    rw [ih (acc ++ [c]) h2]
    simp

theorem keptFrom_idem (thr : ℚ) (l : List Chunk) :
    keptFrom thr [] (keptFrom thr [] l) = keptFrom thr [] l :=
  accepts_keptFrom_eq thr (keptFrom thr [] l) [] (keptFrom_accepts thr l [])

/-- C6: `deduplicate_chunks` keeps a subsequence of its input (relative
order preserved) and is idempotent, for every chunk list and threshold. -/
theorem deduplicate_chunks_sublist_and_idem (xs : List Chunk) (thr : ℚ) :
    List.Sublist (deduplicate_chunks xs thr) xs ∧
      deduplicate_chunks (deduplicate_chunks xs thr) thr = deduplicate_chunks xs thr := by
  by_cases hlen : xs.length ≤ 1
  · constructor
    · simp [deduplicate_chunks, hlen]
    · simp [deduplicate_chunks, hlen]
  · have hys : deduplicate_chunks xs thr = keptFrom thr [] xs := by
      simp only [deduplicate_chunks, hlen, if_false]
      simpa using dedupLoop_eq thr xs []
    refine ⟨by rw [hys]; exact keptFrom_sublist thr xs [], ?_⟩
    rw [hys]
    by_cases h2 : (keptFrom thr [] xs).length ≤ 1
    · simp [deduplicate_chunks, h2]
    · simp only [deduplicate_chunks, h2, if_false]
      have := dedupLoop_eq thr (keptFrom thr [] xs) []
      simpa [keptFrom_idem thr xs] using this

/-!
### Retrieval: `retriever.search_similar_chunks` and `retriever.hybrid_search`

The external vector index is modelled as a list `db` of scored chunks,
ranked for the fixed query under consideration (the index returns results
sorted by score descending; theorems that rely on that ordering take it
as a hypothesis).  `search` takes the top `top_k` results at or above the
score threshold.
-/

/-- The float literal `0.1` (hybrid search score threshold), as an exact
rational. -/
def ratTenth : ℚ := mkRat 1 10

/-- The tag filter of `search_similar_chunks`: `if filter_tags:` is false
for `None` and for the empty list; otherwise keep chunks whose tag set
meets `filter_tags` (`MatchAny`). -/
def tagFiltered (db : List Chunk) : Option (List String) → List Chunk
  | none => db
  | some ts =>
    if ts.isEmpty then db
    else db.filter fun c => c.tags.any fun t => ts.contains t

/-- `retriever.search_similar_chunks`: the index returns the ranked
matches with score ≥ `score_threshold`, limited to `top_k`. -/
def search_similar_chunks (db : List Chunk) (top_k : Nat)
    (filter_tags : Option (List String)) (score_threshold : ℚ) : List Chunk :=
  ((tagFiltered db filter_tags).filter fun c => decide (score_threshold ≤ c.score)).take top_k

/-- Stable insertion step for descending sort: a later element is placed
after every earlier element of score ≥ its own. -/
def insertScoreDesc (c : Chunk) : List Chunk → List Chunk
  | [] => [c]
  | x :: xs => if x.score ≤ c.score then c :: x :: xs else x :: insertScoreDesc c xs

/-- Model of Python's stable `list.sort(key=score, reverse=True)` as a
stable insertion sort (extensionally equal to any stable sort by key). -/
def sortScoreDesc : List Chunk → List Chunk
  | [] => []
  | c :: cs => insertScoreDesc c (sortScoreDesc cs)

/-- `retriever.hybrid_search`.  The keyword score divides by
`len(query_keywords)`; when the query has no words and the loop body runs
at least once, Python raises `ZeroDivisionError`, modelled as `.error`. -/
def hybrid_search (db : List Chunk) (query : String) (top_k : Nat)
    (filter_tags : Option (List String)) (keyword_boost : ℚ) :
    Except String (List Chunk) :=
  let vector_results := search_similar_chunks db (top_k * 2) filter_tags ratTenth
  let query_keywords := wordSet query
  if query_keywords.card = 0 ∧ vector_results ≠ [] then
    .error "ZeroDivisionError: division by zero"
  else
    let rescored := vector_results.map fun c =>
      let keyword_score : ℚ :=
        mkRat (query_keywords ∩ wordSet c.text).card query_keywords.card
      { c with score := (1 - keyword_boost) * c.score + keyword_boost * keyword_score }
    .ok ((sortScoreDesc rescored).take top_k)

/-- Chunk-level descending order by score. -/
def scoreGE (a b : Chunk) : Prop := b.score ≤ a.score

theorem insertScoreDesc_sorted_cons (c : Chunk) (cs : List Chunk)
    (h : ∀ x ∈ cs, x.score ≤ c.score) : insertScoreDesc c cs = c :: cs := by
  cases cs with
  | nil => rfl
  | cons x xs =>
    have := h x (by simp)
    simp [insertScoreDesc, this]

theorem sortScoreDesc_of_sorted (l : List Chunk) (h : l.Pairwise scoreGE) :
    sortScoreDesc l = l := by
  induction l with
  | nil => rfl
  | cons c cs ih =>
    rcases List.pairwise_cons.mp h with ⟨hc, hcs⟩
    rw [sortScoreDesc, ih hcs, insertScoreDesc_sorted_cons c cs hc]

theorem tagFiltered_pairwise (db : List Chunk) (ts : Option (List String))
    (h : db.Pairwise scoreGE) : (tagFiltered db ts).Pairwise scoreGE := by
  cases ts with
  | none => exact h
  | some l =>
    by_cases he : l.isEmpty
    · simpa [tagFiltered, he] using h
    · simp only [tagFiltered, he, if_false]
      exact h.sublist (List.filter_sublist db)

/-- A concrete chunk used by counterexamples and witnesses. -/
def sampleChunk : Chunk :=
  { text := "budget report", doc_id := 3, title := "Doc 3", page := some 1,
    file_type := "pdf", tags := [], score := mkRat 1 2, token_count := 2 }

/-- C5 (amended): for every query whose lowercased whitespace split has at
least one word, `hybrid_search` with `keyword_boost = 0` leaves every
combined score equal to the semantic vector score and returns exactly the
`Search` top-k for the same query, tag filter and threshold 0.1 (the
index returns candidates sorted by score descending). -/
theorem hybrid_search_boost_zero (db : List Chunk) (q : String) (k : Nat)
    (ts : Option (List String)) (hdb : db.Pairwise scoreGE)
    (hq : (wordSet q).card ≠ 0) :
    hybrid_search db q k ts 0 = .ok (search_similar_chunks db k ts ratTenth) := by
  have hgate : ¬ ((wordSet q).card = 0 ∧
      search_similar_chunks db (k * 2) ts ratTenth ≠ ([] : List Chunk)) := by
    intro h; exact hq h.1
  have hmap : (search_similar_chunks db (k * 2) ts ratTenth).map (fun c =>
      { c with score := (1 - 0) * c.score + 0 *
        (mkRat ((wordSet q ∩ wordSet c.text).card) (wordSet q).card) }) =
      search_similar_chunks db (k * 2) ts ratTenth := by
    have hid : ∀ c : Chunk, ({ c with score := (1 - 0) * c.score + 0 *
        (mkRat ((wordSet q ∩ wordSet c.text).card) (wordSet q).card) } : Chunk) = c := by
      intro c; simp
    simp only [hid, List.map_id_fun', id_eq]
  have hsorted : (search_similar_chunks db (k * 2) ts ratTenth).Pairwise scoreGE := by
    refine List.Pairwise.sublist ?_ (tagFiltered_pairwise db ts hdb)
    exact (List.take_sublist _ _).trans (List.filter_sublist _)
  simp only [hybrid_search, hgate, if_false, hmap, sortScoreDesc_of_sorted _ hsorted]
  have : List.take k (List.take (k * 2)
      ((tagFiltered db ts).filter fun c => decide (ratTenth ≤ c.score))) =
      List.take k ((tagFiltered db ts).filter fun c => decide (ratTenth ≤ c.score)) := by
    rw [List.take_take]
    congr 1
    omega
  simp only [search_similar_chunks, this]

/-- C5 witness: the amended statement applied at a concrete index, query
and top-k. -/
theorem hybrid_search_boost_zero_witness :
    hybrid_search [sampleChunk] "budget" 4 none 0 =
      .ok (search_similar_chunks [sampleChunk] 4 none ratTenth) :=
  hybrid_search_boost_zero [sampleChunk] "budget" 4 none (by simp) (by decide)

/-- C5 counterexample: on the empty query (no words after splitting) with
one semantic candidate, `hybrid_search` with `keyword_boost = 0` errors
out while `Search` returns that candidate, so the two do not agree for
every query. -/
theorem hybrid_search_boost_zero_counterexample :
    hybrid_search [sampleChunk] "" 5 none 0 =
        .error "ZeroDivisionError: division by zero" ∧
      search_similar_chunks [sampleChunk] 5 none ratTenth = [sampleChunk] := by
  constructor
  · rfl
  · rfl

/-- C9: whenever the query splits into no words (e.g. empty or
all-whitespace) and the semantic search returns at least one candidate,
`hybrid_search` raises a division-by-zero error instead of returning a
result. -/
theorem hybrid_search_empty_query_raises (db : List Chunk) (q : String) (k : Nat)
    (ts : Option (List String)) (boost : ℚ)
    (hq : splitWords (toLowerList q.data) = [])
    (hres : search_similar_chunks db (k * 2) ts ratTenth ≠ []) :
    hybrid_search db q k ts boost = .error "ZeroDivisionError: division by zero" := by
  have hcard : (wordSet q).card = 0 := by simp [wordSet, hq]
  simp only [hybrid_search]
  rw [if_pos ⟨hcard, hres⟩]

/-- C9 witness: the empty query with one candidate in the index. -/
theorem hybrid_search_empty_query_raises_witness :
    hybrid_search [sampleChunk] "" 5 none (3 / 10) =
      .error "ZeroDivisionError: division by zero" :=
  hybrid_search_empty_query_raises [sampleChunk] "" 5 none (3 / 10) rfl (by decide)

/-!
### The `/ask` endpoint (`main.ask_question`) and citations

The search backend is a function from the requested limit to the returned
chunk list; the LLM call only produces the answer text and is not needed
for the claims below, so the outcome records the control-flow facts and
the citations.
-/

/-- The fixed domain trigger keyword list of `main.ask_question`. -/
def document_keywords : List String :=
  ["project", "document", "construction", "methodology", "procedure",
   "specification", "requirement", "helipad", "warehouse", "port",
   "yanbu", "kkmc", "neom", "progress", "report", "contract",
   "personnel", "team", "engineer", "safety", "quality"]

/-- `pat` occurs at the head of the second list. -/
def leadEq : List Char → List Char → Bool
  | [], _ => true
  | _ :: _, [] => false
  | p :: ps, t :: ts => p == t && leadEq ps ts

/-- Python substring containment `pat in text` on character lists. -/
def containsSub (pat : List Char) : List Char → Bool
  | [] => leadEq pat []
  | t :: ts => leadEq pat (t :: ts) || containsSub pat ts

/-- `any(keyword in query_lower for keyword in document_keywords)`. -/
def needsDocuments (query : String) : Bool :=
  document_keywords.any fun kw => containsSub kw.data (toLowerList query.data)

/-- Config default `RAG_TOP_K`. -/
def RAG_TOP_K : Nat := 6

/-- `request.top_k or settings.RAG_TOP_K` (both `None` and `0` are falsy
in Python, so both fall back to the default). -/
def effectiveTopK : Option Nat → Nat
  | none => RAG_TOP_K
  | some k => if k = 0 then RAG_TOP_K else k

/-- The float literal `0.95`, the default dedup similarity threshold. -/
def rat95 : ℚ := mkRat 95 100

/-- A `Citation` of the response model. -/
structure Citation where
  doc_id : Nat
  title : String
  page : Option Nat
  score : ℚ
  url : String
  snippet : String
deriving DecidableEq, Repr

/-- `paperless.build_document_url`. -/
def build_document_url (base : String) (doc_id : Nat) : String :=
  base ++ "/documents/" ++ toString doc_id

/-- The snippet rule of `main.ask_question`: `text[:300] + "..."` when the
text exceeds 300 characters, else the text itself. -/
def truncateSnippet (text : String) : String :=
  if text.length > 300 then String.mk (text.data.take 300) ++ "..." else text

/-- One citation built from a retained chunk. -/
def citationOf (base : String) (c : Chunk) : Citation :=
  { doc_id := c.doc_id, title := c.title, page := c.page, score := c.score,
    url := build_document_url base c.doc_id, snippet := truncateSnippet c.text }

/-- Which of the three answer paths of `ask_question` was taken. -/
inductive AnswerMode
  | general
  | notFound
  | rag
deriving DecidableEq, Repr

/-- Observable outcome of one `/ask` request. -/
structure AskOutcome where
  retrieved : Bool
  searchLimit : Nat
  mode : AnswerMode
  citations : List Citation
deriving DecidableEq, Repr

/-- `search_k` in `ask_question`: double the effective top-k when it is
below 20. -/
def searchLimitOf (topK? : Option Nat) : Nat :=
  let top_k := effectiveTopK topK?
  if top_k < 20 then top_k * 2 else top_k

/-- The chunk list `ask_question` retrieves: the search backend is only
invoked when the query contains a trigger keyword. -/
def retrievedChunks (query : String) (topK? : Option Nat)
    (search : Nat → List Chunk) : List Chunk :=
  if needsDocuments query then search (searchLimitOf topK?) else []

/-- `main.ask_question`: gating, retrieval, fallbacks, deduplication and
citation building. -/
def ask_question (base query : String) (topK? : Option Nat) (allow : Bool)
    (search : Nat → List Chunk) : AskOutcome :=
  let chunks := retrievedChunks query topK? search
  if chunks.isEmpty && allow then
    { retrieved := needsDocuments query, searchLimit := searchLimitOf topK?,
      mode := .general, citations := [] }
  else if chunks.isEmpty then
    { retrieved := needsDocuments query, searchLimit := searchLimitOf topK?,
      mode := .notFound, citations := [] }
  else
    { retrieved := needsDocuments query, searchLimit := searchLimitOf topK?,
      mode := .rag,
      citations := (deduplicate_chunks chunks rat95).map (citationOf base) }

theorem dedup_sublist (xs : List Chunk) (thr : ℚ) :
    List.Sublist (deduplicate_chunks xs thr) xs := by
  by_cases hlen : xs.length ≤ 1
  · simp [deduplicate_chunks, hlen]
  · simp only [deduplicate_chunks, hlen, if_false]
    rw [dedupLoop_eq thr xs []]
    simpa using keptFrom_sublist thr xs []

/-- C2 (amended): `/ask` bypasses retrieval exactly when the query
contains none of the trigger keywords, regardless of
`allow_general_chat`; with no keyword and general chat disabled it
returns the canned not-found answer, still without retrieving. -/
theorem ask_gating_keywords_only (base query : String) (topK? : Option Nat)
    (allow : Bool) (search : Nat → List Chunk) :
    (ask_question base query topK? allow search).retrieved = needsDocuments query ∧
      (needsDocuments query = false →
        retrievedChunks query topK? search = [] ∧
          (ask_question base query topK? allow search).citations = [] ∧
          (ask_question base query topK? allow search).mode =
            (if allow then AnswerMode.general else AnswerMode.notFound)) := by
  constructor
  · unfold ask_question
    by_cases h2 : (retrievedChunks query topK? search).isEmpty <;>
      cases allow <;> simp [h2]
  · intro hneeds
    have hempty : retrievedChunks query topK? search = [] := by
      simp [retrievedChunks, hneeds]
    refine ⟨hempty, ?_, ?_⟩ <;> cases allow <;> simp [ask_question, hempty]

/-- C2 counterexample: "hello" contains no trigger keyword and general
chat is disallowed; the claim demands retrieval in that case, but the
service never queries the index (`retrieved = false`) and answers with
the canned not-found message even though the index has matches. -/
theorem ask_gating_counterexample :
    needsDocuments "hello" = false ∧
      (ask_question "u" "hello" none false fun _ => [sampleChunk]).retrieved = false ∧
      (ask_question "u" "hello" none false fun _ => [sampleChunk]).mode =
        AnswerMode.notFound := by
  exact ⟨rfl, rfl, rfl⟩

/-- C2 witness: the gating consequent at the keyword-free query
`"hello"`. -/
theorem ask_gating_keywords_only_witness :
    retrievedChunks "hello" none (fun _ => [sampleChunk]) = [] ∧
      (ask_question "u" "hello" none true fun _ => [sampleChunk]).citations = [] ∧
      (ask_question "u" "hello" none true fun _ => [sampleChunk]).mode =
        (if true then AnswerMode.general else AnswerMode.notFound) :=
  (ask_gating_keywords_only "u" "hello" none true (fun _ => [sampleChunk])).2
    (by decide)

/-- C4: the citations of an `/ask` response are the images of a
subsequence of the chunk list retrieved in the same request, and when the
index returns results sorted by score descending the citation scores are
sorted descending as well. -/
theorem ask_citations_sublist_sorted (base query : String) (topK? : Option Nat)
    (allow : Bool) (search : Nat → List Chunk)
    (hsort : ∀ n, ((search n).map Chunk.score).Sorted (· ≥ ·)) :
    ∃ kept : List Chunk,
      List.Sublist kept (retrievedChunks query topK? search) ∧
        (ask_question base query topK? allow search).citations =
          kept.map (citationOf base) ∧
        (((ask_question base query topK? allow search).citations.map
          Citation.score).Sorted (· ≥ ·)) := by
  have hcs : ((retrievedChunks query topK? search).map Chunk.score).Sorted (· ≥ ·) := by
    unfold retrievedChunks
    by_cases h : needsDocuments query
    · simpa [h] using hsort (searchLimitOf topK?)
    · simp [h, List.Sorted]
  by_cases h2 : (retrievedChunks query topK? search).isEmpty
  · refine ⟨[], List.nil_sublist _, ?_, ?_⟩ <;>
      cases allow <;> simp [ask_question, h2, List.Sorted]
  · have hcit : (ask_question base query topK? allow search).citations =
        (deduplicate_chunks (retrievedChunks query topK? search) rat95).map
          (citationOf base) := by
      cases allow <;> simp [ask_question, h2]
    refine ⟨deduplicate_chunks (retrievedChunks query topK? search) rat95,
      dedup_sublist _ _, hcit, ?_⟩
    rw [hcit, List.map_map]
    have hfun : (Citation.score ∘ citationOf base) = Chunk.score := by
      funext c; rfl
    rw [hfun]
    exact List.Pairwise.sublist
      (List.Sublist.map Chunk.score (dedup_sublist _ _)) hcs

/-- C4 witness: a concrete request with a sorted singleton index. -/
theorem ask_citations_sublist_sorted_witness :
    ∃ kept : List Chunk,
      List.Sublist kept (retrievedChunks "the report" none fun _ => [sampleChunk]) ∧
        (ask_question "u" "the report" none true fun _ => [sampleChunk]).citations =
          kept.map (citationOf "u") ∧
        (((ask_question "u" "the report" none true fun _ => [sampleChunk]).citations.map
          Citation.score).Sorted (· ≥ ·)) :=
  ask_citations_sublist_sorted "u" "the report" none true (fun _ => [sampleChunk])
    (by intro n; simp [List.Sorted])

/-- A second and third concrete chunk with disjoint word sets. -/
def chunkAlpha : Chunk :=
  { text := "alpha", doc_id := 1, title := "A", page := none,
    file_type := "pdf", tags := [], score := 1, token_count := 1 }

/-- See `chunkAlpha`. -/
def chunkBeta : Chunk :=
  { text := "beta", doc_id := 2, title := "B", page := none,
    file_type := "pdf", tags := [], score := mkRat 1 2, token_count := 1 }

/-- C10: when retrieval happens with requested `top_k < 20`, the index is
asked for `2 × top_k` chunks, every chunk surviving deduplication becomes
a citation with no truncation back to `top_k` (the citation count is the
dedup-survivor count, bounded only by `2 × top_k`), and some requests
really do produce more than `top_k` citations. -/
theorem ask_topk_doubling (base query : String) (k : Nat) (allow : Bool)
    (search : Nat → List Chunk) (hk : 0 < k) (hk20 : k < 20)
    (hneeds : needsDocuments query = true)
    (hlen : ∀ n, (search n).length ≤ n) :
    (ask_question base query (some k) allow search).searchLimit = k * 2 ∧
      (ask_question base query (some k) allow search).citations.length =
        (deduplicate_chunks (search (k * 2)) rat95).length ∧
      (ask_question base query (some k) allow search).citations.length ≤ k * 2 ∧
      ∃ (b2 q2 : String) (k2 : Nat) (srch2 : Nat → List Chunk),
        0 < k2 ∧ k2 < 20 ∧ needsDocuments q2 = true ∧
          (∀ n, (srch2 n).length ≤ n) ∧
          k2 < (ask_question b2 q2 (some k2) true srch2).citations.length := by
  have hlim : searchLimitOf (some k) = k * 2 := by
    have : effectiveTopK (some k) = k := by
      simp [effectiveTopK, Nat.pos_iff_ne_zero.mp hk]
    simp [searchLimitOf, this, hk20]
  have hchunks : retrievedChunks query (some k) search = search (k * 2) := by
    simp [retrievedChunks, hneeds, hlim]
  have hcit : (ask_question base query (some k) allow search).citations.length =
      (deduplicate_chunks (search (k * 2)) rat95).length := by
    by_cases h2 : (retrievedChunks query (some k) search).isEmpty
    · have hnil : search (k * 2) = [] := by
        rw [← hchunks]; exact List.isEmpty_iff.mp h2
      cases allow <;>
        simp [ask_question, h2, hnil, deduplicate_chunks]
    · have hne : search (k * 2) ≠ [] := by
        rw [← hchunks]
        intro h
        exact h2 (by simp [h])
      cases allow <;>
        simp [ask_question, h2, hchunks, hne]
  refine ⟨?_, hcit, ?_, ?_⟩
  · by_cases h2 : (retrievedChunks query (some k) search).isEmpty <;>
      cases allow <;> simp [ask_question, h2, hlim]
  · rw [hcit]
    exact le_trans ((dedup_sublist _ _).length_le) (hlen (k * 2))
  · refine ⟨"u", "project", 1, (fun n => ([chunkAlpha, chunkBeta]).take n),
      ?_, ?_, ?_, ?_, ?_⟩
    · decide
    · decide
    · decide
    · intro n
      exact List.length_take_le n [chunkAlpha, chunkBeta]
    · decide

/-- C10 witness: the theorem applied at a concrete request asking for
`top_k = 1` over a two-chunk index. -/
theorem ask_topk_doubling_witness :
    (ask_question "u" "project" (some 1) true
        (fun n => ([chunkAlpha, chunkBeta]).take n)).searchLimit = 1 * 2 ∧
      (ask_question "u" "project" (some 1) true
          (fun n => ([chunkAlpha, chunkBeta]).take n)).citations.length =
        (deduplicate_chunks ((fun n => ([chunkAlpha, chunkBeta]).take n) (1 * 2))
          rat95).length ∧
      (ask_question "u" "project" (some 1) true
          (fun n => ([chunkAlpha, chunkBeta]).take n)).citations.length ≤ 1 * 2 ∧
      ∃ (b2 q2 : String) (k2 : Nat) (srch2 : Nat → List Chunk),
        0 < k2 ∧ k2 < 20 ∧ needsDocuments q2 = true ∧
          (∀ n, (srch2 n).length ≤ n) ∧
          k2 < (ask_question b2 q2 (some k2) true srch2).citations.length :=
  ask_topk_doubling "u" "project" 1 true (fun n => ([chunkAlpha, chunkBeta]).take n)
    (by decide) (by decide) (by decide)
    (fun n => List.length_take_le n [chunkAlpha, chunkBeta])

/-!
### Context assembly (`llm.build_context_prompt`)

The context string is assembled from document groups (a Python dict in
insertion order); each group contributes an uncounted header line and its
chunk entries, each entry charged `len(entry) // 4` tokens against the
shared running budget.
-/

/-- Config default `MAX_SNIPPETS_TOKENS`. -/
def MAX_SNIPPETS_TOKENS : Nat := 2500

/-- `llm.estimate_tokens`: `len(text) // 4` (floor division). -/
def estimate_tokens (text : String) : Nat :=
  text.length / 4

/-- One insertion-ordered document group: id, title of the first chunk
seen, chunks in arrival order. -/
abbrev DocGroup := Nat × String × List Chunk

/-- Insert one chunk into the group dict (Python dicts preserve insertion
order). -/
def addToGroups (groups : List DocGroup) (c : Chunk) : List DocGroup :=
  if groups.any fun g => g.1 = c.doc_id then
    groups.map fun g =>
      if g.1 = c.doc_id then (g.1, g.2.1, g.2.2 ++ [c]) else g
  else
    groups ++ [(c.doc_id, c.title, [c])]

/-- The `doc_groups` dict of `build_context_prompt`. -/
def docGroups (chunks : List Chunk) : List DocGroup :=
  chunks.foldl addToGroups []

/-- One rendered chunk entry: `Page {n}:\n{text}\n` when `page` is truthy
(present and nonzero), else `{text}\n`. -/
def contextEntry (c : Chunk) : String :=
  match c.page with
  | some p => if p ≠ 0 then "Page " ++ toString p ++ ":\n" ++ c.text ++ "\n"
              else c.text ++ "\n"
  | none => c.text ++ "\n"

/-- The inner loop over one group's chunks: appended entries plus the
updated running total; `break` stops this group's loop when the next
entry would push the total past the budget. -/
def groupEntries : List Chunk → Nat → Nat → List String × Nat
  | [], total, _ => ([], total)
  | c :: rest, total, maxTok =>
    let e := contextEntry c
    let t := estimate_tokens e
    if total + t > maxTok then ([], total)
    else
      let p := groupEntries rest (total + t) maxTok
      (e :: p.1, p.2)

/-- The outer loop over document groups: every group emits its uncounted
header; the running total carries across groups. -/
def buildParts : List DocGroup → Nat → Nat → List String × Nat
  | [], total, _ => ([], total)
  | g :: rest, total, maxTok =>
    let header := "\n=== From document: " ++ g.2.1 ++ " ===\n"
    let p := groupEntries g.2.2 total maxTok
    let q := buildParts rest p.2 maxTok
    (header :: p.1 ++ q.1, q.2)

/-- The chunk entries (headers excluded) that `buildParts` appends. -/
def keptEntries : List DocGroup → Nat → Nat → List String
  | [], _, _ => []
  | g :: rest, total, maxTok =>
    let p := groupEntries g.2.2 total maxTok
    p.1 ++ keptEntries rest p.2 maxTok

/-- Python `"\n".join(parts)`. -/
def joinNl : List String → String
  | [] => ""
  | [s] => s
  | s :: rest => s ++ "\n" ++ joinNl rest

/-- The assembled context string of `build_context_prompt`. -/
def buildContext (chunks : List Chunk) (maxTok : Nat) : String :=
  joinNl (buildParts (docGroups chunks) 0 maxTok).1

/-- The per-entry token cost in the words of the spec: the ceiling of the
length divided by 4 (the source uses the floor). -/
def specCeilTokens (s : String) : Nat :=
  (s.length + 3) / 4

theorem groupEntries_total (cs : List Chunk) :
    ∀ total maxTok, (groupEntries cs total maxTok).2 =
      total + ((groupEntries cs total maxTok).1.map estimate_tokens).sum := by
  induction cs with
  | nil => intro total maxTok; simp [groupEntries]
  | cons c rest ih =>
    intro total maxTok
    by_cases h : total + estimate_tokens (contextEntry c) > maxTok
    · simp [groupEntries, h]
    · simp only [groupEntries, h, if_false, List.map_cons, List.sum_cons]
      rw [ih (total + estimate_tokens (contextEntry c)) maxTok]
      ring

theorem groupEntries_le (cs : List Chunk) :
    ∀ total maxTok, total ≤ maxTok → (groupEntries cs total maxTok).2 ≤ maxTok := by
  induction cs with
  | nil => intro total maxTok h; simpa [groupEntries] using h
  | cons c rest ih =>
    intro total maxTok h
    by_cases hc : total + estimate_tokens (contextEntry c) > maxTok
    · simpa [groupEntries, hc] using h
    · simp only [groupEntries, hc, if_false]
      exact ih _ maxTok (by omega)

theorem buildParts_total (gs : List DocGroup) :
    ∀ total maxTok, (buildParts gs total maxTok).2 =
      total + ((keptEntries gs total maxTok).map estimate_tokens).sum := by
  induction gs with
  | nil => intro total maxTok; simp [buildParts, keptEntries]
  | cons g rest ih =>
    intro total maxTok
    simp only [buildParts, keptEntries, List.map_append, List.sum_append]
    rw [ih (groupEntries g.2.2 total maxTok).2 maxTok,
      groupEntries_total g.2.2 total maxTok]
    ring

theorem buildParts_le (gs : List DocGroup) :
    ∀ total maxTok, total ≤ maxTok → (buildParts gs total maxTok).2 ≤ maxTok := by
  induction gs with
  | nil => intro total maxTok h; simpa [buildParts] using h
  | cons g rest ih =>
    intro total maxTok h
    simp only [buildParts]
    exact ih _ maxTok (groupEntries_le g.2.2 total maxTok h)

/-- C1 (amended): the running total of `build_context_prompt` is exactly
the sum of `len(entry) // 4` (floor, not ceiling) over the appended chunk
entries, and never exceeds the budget; document headers and the joining
newlines are appended without being charged. -/
theorem context_budget_floor (chunks : List Chunk) (maxTok : Nat) :
    (buildParts (docGroups chunks) 0 maxTok).2 =
        ((keptEntries (docGroups chunks) 0 maxTok).map estimate_tokens).sum ∧
      (buildParts (docGroups chunks) 0 maxTok).2 ≤ maxTok := by
  constructor
  · simpa using buildParts_total (docGroups chunks) 0 maxTok
  · exact buildParts_le (docGroups chunks) 0 maxTok (Nat.zero_le _)

/-- A 10002-character text whose rendered entry costs floor 2500 but
ceiling 2501 tokens. -/
def bigText : String :=
  String.mk (List.replicate 10002 'a')

/-- The chunk carrying `bigText`. -/
def bigChunk : Chunk :=
  { text := bigText, doc_id := 7, title := "T", page := none,
    file_type := "pdf", tags := [], score := 1, token_count := 2500 }

/-- C1 counterexample: with the default budget 2500 and a single retrieved
chunk of 10002 characters the appended entry passes the floor test, yet
its ceiling cost is 2501 > 2500, and the assembled context string
(header, joining newline and entry) estimates to 2507 > 2500 tokens, so
the claimed ceiling-cost budget bound fails on the code. -/
theorem context_budget_counterexample :
    MAX_SNIPPETS_TOKENS <
        ((keptEntries (docGroups [bigChunk]) 0 MAX_SNIPPETS_TOKENS).map
          specCeilTokens).sum ∧
      MAX_SNIPPETS_TOKENS <
        estimate_tokens (buildContext [bigChunk] MAX_SNIPPETS_TOKENS) := by
  have hlen : bigText.length = 10002 := by
    show (String.mk (List.replicate 10002 'a')).length = 10002
    rw [String.length_mk, List.length_replicate]
  have hlen2 : (bigText ++ "\n").length = 10003 := by
    rw [String.length_append, hlen]
    rfl
  have hentry : contextEntry bigChunk = bigText ++ "\n" := rfl
  have hest : estimate_tokens (bigText ++ "\n") = 2500 := by
    show (bigText ++ "\n").length / 4 = 2500
    rw [hlen2]
  have hgroups : docGroups [bigChunk] = [(7, "T", [bigChunk])] := rfl
  have hge : groupEntries [bigChunk] 0 MAX_SNIPPETS_TOKENS =
      ([bigText ++ "\n"], 2500) := by
    simp [groupEntries, hentry, hest, MAX_SNIPPETS_TOKENS]
  have hkept : keptEntries (docGroups [bigChunk]) 0 MAX_SNIPPETS_TOKENS =
      [bigText ++ "\n"] := by
    rw [hgroups]
    simp only [keptEntries, hge, List.append_nil]
  have hceil : specCeilTokens (bigText ++ "\n") = 2501 := by
    unfold specCeilTokens
    rw [hlen2]
  constructor
  · rw [hkept]
    simp only [List.map_cons, List.map_nil, List.sum_cons, List.sum_nil, hceil]
    norm_num [MAX_SNIPPETS_TOKENS]
  · have hparts : (buildParts (docGroups [bigChunk]) 0 MAX_SNIPPETS_TOKENS).1 =
        ["\n=== From document: T ===\n", bigText ++ "\n"] := by
      rw [hgroups]
      simp [buildParts, hge]
    have hctx : buildContext [bigChunk] MAX_SNIPPETS_TOKENS =
        "\n=== From document: T ===\n" ++ "\n" ++ (bigText ++ "\n") := by
      unfold buildContext
      rw [hparts]
      rfl
    have hclen : (buildContext [bigChunk] MAX_SNIPPETS_TOKENS).length = 10030 := by
      rw [hctx, String.length_append, String.length_append, hlen2]
      rfl
    have hev : estimate_tokens (buildContext [bigChunk] MAX_SNIPPETS_TOKENS) = 2507 := by
      unfold estimate_tokens
      rw [hclen]
    rw [hev]
    norm_num [MAX_SNIPPETS_TOKENS]

/-!
### Text cleaning (`extractors.clean_text`)

The pipeline is: replace NUL with a space, `re.sub(r'\s+', ' ', ·)`,
`re.sub(r'\n\s*\n\s*\n+', '\n\n', ·)`, replace characters outside the
permissive class by a space, `strip()`.  The second step removes every
newline, so the third is the identity on its actual inputs.
-/

/-- `re.sub(r'\s+', ' ', ·)` via a currently-inside-a-run flag. -/
def collapseWsAux : Bool → List Char → List Char
  | _, [] => []
  | prevWs, c :: rest =>
    if isPySpace c then
      if prevWs then collapseWsAux true rest
      else ' ' :: collapseWsAux true rest
    else c :: collapseWsAux false rest

/-- Collapse every whitespace run to a single space. -/
def collapseWs (l : List Char) : List Char :=
  collapseWsAux false l

/-- Greedy `\n+` at the front: the maximal nonempty newline run. -/
def matchNlPlus (s : List Char) : Option Nat :=
  let m := (s.takeWhile fun c => c == '\n').length
  if m = 0 then none else some m

/-- Backtracking `\s*` before a continuation: try consuming `i` spaces,
longest first, as the regex engine does. -/
def tryStarFrom (k : List Char → Option Nat) (s : List Char) : Nat → Option Nat
  | 0 => k s
  | i + 1 =>
    match k (s.drop (i + 1)) with
    | some n => some (i + 1 + n)
    | none => tryStarFrom k s i

/-- `\s*` then continuation `k`. -/
def matchStarThen (k : List Char → Option Nat) (s : List Char) : Option Nat :=
  tryStarFrom k s ((s.takeWhile isPySpace).length)

/-- A literal `\n` then continuation `k`. -/
def matchNlThen (k : List Char → Option Nat) : List Char → Option Nat
  | [] => none
  | c :: rest => if c == '\n' then (k rest).map (· + 1) else none

/-- Length of the greedy match of `\n\s*\n\s*\n+` at the front. -/
def tripleNlMatch (s : List Char) : Option Nat :=
  matchNlThen (matchStarThen (matchNlThen (matchStarThen matchNlPlus))) s

/-- `re.sub(r'\n\s*\n\s*\n+', '\n\n', ·)`: scan left to right, replace
each match and resume after it.  Fuel is the input length; every step
consumes at least one character, so the fuel never runs out. -/
def subTripleNlF : Nat → List Char → List Char
  | _, [] => []
  | 0, l => l
  | fuel + 1, c :: rest =>
    match tripleNlMatch (c :: rest) with
    | some n => '\n' :: '\n' :: subTripleNlF fuel (rest.drop (n - 1))
    | none => c :: subTripleNlF fuel rest

/-- The blank-line collapsing step of `clean_text`. -/
def subTripleNl (l : List Char) : List Char :=
  subTripleNlF l.length l

/-- Regex `\w` at its ASCII meaning. -/
def isWordChar (c : Char) : Bool :=
  c.isAlpha || c.isDigit || c == '_'

/-- The punctuation admitted by the OCR-artifact class of `clean_text`. -/
def allowedPunct : List Char :=
  ['-', '.', ',', ';', ':', '!', '?', '(', ')', '[', ']', '\x7b', '\x7d',
   '\x22', '\x27', '/', '\\', '@', '#', '$', '%', '^', '&', '*', '+', '=',
   '<', '>', '~', '\x60', '|']

/-- Membership in the class `[\w\s\-.,;:!?()[\]{}"'/\\@#$%^&*+=<>~`|]`
(characters outside it are replaced by a space). -/
def isAllowedChar (c : Char) : Bool :=
  isWordChar c || isPySpace c || allowedPunct.contains c

/-- The OCR-artifact replacement step. -/
def cleanOcr (l : List Char) : List Char :=
  l.map fun c => if isAllowedChar c then c else ' '

/-- Python `str.strip()`. -/
def stripChars (l : List Char) : List Char :=
  (((l.dropWhile isPySpace).reverse.dropWhile isPySpace)).reverse

/-- `extractors.clean_text` (`if not text` short-circuits the empty
string). -/
def clean_text (s : String) : String :=
  if s = "" then ""
  else String.mk (stripChars (cleanOcr (subTripleNl (collapseWs
    (s.data.map fun c => if c == '\x00' then ' ' else c)))))

theorem collapseWsAux_mem (l : List Char) :
    ∀ (flag : Bool) (c : Char), c ∈ collapseWsAux flag l →
      c = ' ' ∨ isPySpace c = false := by
  induction l with
  | nil => intro flag c hc; simp [collapseWsAux] at hc
  | cons a rest ih =>
    intro flag c hc
    by_cases ha : isPySpace a
    · cases flag with
      | true =>
        have he : collapseWsAux true (a :: rest) = collapseWsAux true rest := by
          simp [collapseWsAux, ha]
        rw [he] at hc
        exact ih true c hc
      | false =>
        have he : collapseWsAux false (a :: rest) =
            ' ' :: collapseWsAux true rest := by
          simp [collapseWsAux, ha]
        rw [he] at hc
        rcases List.mem_cons.mp hc with hc2 | hc2
        · exact Or.inl hc2
        · exact ih true c hc2
    · have he : collapseWsAux flag (a :: rest) = a :: collapseWsAux false rest := by
        simp [collapseWsAux, ha]
      rw [he] at hc
      rcases List.mem_cons.mp hc with hc2 | hc2
      · subst hc2
        right
        simpa using ha
      · exact ih false c hc2

theorem collapseWs_no_newline (l : List Char) : '\n' ∉ collapseWs l := by
  intro h
  rcases collapseWsAux_mem l false '\n' h with h1 | h1
  · exact absurd h1 (by decide)
  · exact absurd h1 (by decide)

theorem subTripleNlF_id (fuel : Nat) :
    ∀ l : List Char, '\n' ∉ l → subTripleNlF fuel l = l := by
  induction fuel with
  | zero =>
    intro l _
    cases l with
    | nil => rfl
    | cons c rest => rfl
  | succ fuel ih =>
    intro l hl
    cases l with
    | nil => rfl
    | cons c rest =>
      have hc : (c == '\n') = false := by
        simp only [List.mem_cons, not_or] at hl
        have : c ≠ '\n' := fun h => hl.1 h.symm
        simpa using this
      have hmatch : tripleNlMatch (c :: rest) = none := by
        simp [tripleNlMatch, matchNlThen, hc]
      simp only [subTripleNlF, hmatch]
      have : '\n' ∉ rest := by
        simp only [List.mem_cons, not_or] at hl
        exact hl.2
      rw [ih rest this]

theorem subTripleNl_id (l : List Char) (h : '\n' ∉ l) : subTripleNl l = l :=
  subTripleNlF_id l.length l h

theorem cleanOcr_mem (l : List Char) (c : Char) (hc : c ∈ cleanOcr l) :
    c = ' ' ∨ (c ∈ l ∧ isAllowedChar c = true) := by
  rcases List.mem_map.mp hc with ⟨a, ha, hfa⟩
  by_cases h : isAllowedChar a
  · right
    rw [if_pos h] at hfa
    subst hfa
    exact ⟨ha, h⟩
  · left
    rw [if_neg h] at hfa
    exact hfa.symm

theorem stripChars_subset (l : List Char) (c : Char) (hc : c ∈ stripChars l) :
    c ∈ l := by
  unfold stripChars at hc
  rw [List.mem_reverse] at hc
  have h1 := (List.dropWhile_sublist (l := (l.dropWhile isPySpace).reverse)
    (p := isPySpace)).mem hc
  rw [List.mem_reverse] at h1
  exact (List.dropWhile_sublist (l := l) (p := isPySpace)).mem h1

theorem dropWhile_head_not (p : Char → Bool) :
    ∀ (l : List Char) (c : Char), (l.dropWhile p).head? = some c → p c = false := by
  intro l
  induction l with
  | nil => intro c h; simp [List.dropWhile] at h
  | cons a rest ih =>
    intro c h
    by_cases ha : p a
    · rw [List.dropWhile_cons_of_pos ha] at h
      exact ih c h
    · rw [List.dropWhile_cons_of_neg ha] at h
      simp only [List.head?_cons, Option.some.injEq] at h
      subst h
      simpa using ha

theorem dropWhile_getLast (p : Char → Bool) :
    ∀ l : List Char, l.dropWhile p = [] ∨ (l.dropWhile p).getLast? = l.getLast? := by
  intro l
  induction l with
  | nil => exact Or.inl rfl
  | cons a rest ih =>
    by_cases ha : p a
    · rw [List.dropWhile_cons_of_pos ha]
      by_cases hrest : rest.dropWhile p = []
      · exact Or.inl hrest
      · have hne : rest ≠ [] := by
          intro hr
          rw [hr] at hrest
          exact hrest rfl
        right
        rcases ih with h | h
        · exact absurd h hrest
        · rw [h, List.getLast?_cons]
          cases hx : rest.getLast? with
          | none =>
            have : rest = [] := by simpa using hx
            exact absurd this hne
          | some x => rfl
    · rw [List.dropWhile_cons_of_neg ha]
      exact Or.inr rfl

/-- C8 counterexample: on `"a\n\n\n\nb"` the claim requires the blank-line
run to survive as a paragraph break, i.e. a result containing a double
newline; the code collapses all whitespace to single spaces first, so the
result is `"a b"` with no newline at all. -/
theorem clean_text_counterexample :
    clean_text "a\n\n\n\nb" = "a b" ∧ clean_text "a\n\n\n\nb" ≠ "a\n\nb" := by
  constructor
  · rfl
  · decide

/-- C8 (amended): `clean_text` replaces NUL bytes with spaces and then
collapses every whitespace run (newlines included) to one space, so no
newline survives and the blank-line step is the identity on its actual
input; characters outside the permissive class are replaced by spaces,
not dropped; the result is stripped, and each of its characters is a word
character, an admitted punctuation character, or a space — never NUL or a
newline.  Stated for ASCII inputs, where the ASCII model of `\w`/`\s`
agrees with Python. -/
theorem clean_text_spec (s : String) (hascii : ∀ c ∈ s.data, c.val < 128) :
    (∀ c ∈ (clean_text s).data,
        (isWordChar c || allowedPunct.contains c || (c == ' ')) = true ∧
          c ≠ '\n' ∧ c ≠ '\x00') ∧
      subTripleNl (collapseWs (s.data.map fun c => if c == '\x00' then ' ' else c)) =
        collapseWs (s.data.map fun c => if c == '\x00' then ' ' else c) ∧
      (∀ c, (clean_text s).data.head? = some c → isPySpace c = false) ∧
      (∀ c, (clean_text s).data.getLast? = some c → isPySpace c = false) := by
  have hnl : '\n' ∉ collapseWs (s.data.map fun c => if c == '\x00' then ' ' else c) :=
    collapseWs_no_newline _
  have h3 : subTripleNl (collapseWs (s.data.map fun c => if c == '\x00' then ' ' else c)) =
      collapseWs (s.data.map fun c => if c == '\x00' then ' ' else c) :=
    subTripleNl_id _ hnl
  by_cases hs : s = ""
  · subst hs
    refine ⟨?_, h3, ?_, ?_⟩ <;> simp [clean_text]
  · have hdata : (clean_text s).data =
        stripChars (cleanOcr (collapseWs
          (s.data.map fun c => if c == '\x00' then ' ' else c))) := by
      simp only [clean_text, hs, if_false]
      rw [h3]
    refine ⟨?_, h3, ?_, ?_⟩
    · intro c hc
      rw [hdata] at hc
      have hc1 := stripChars_subset _ c hc
      rcases cleanOcr_mem _ c hc1 with hsp | ⟨hcm, hall⟩
      · subst hsp
        exact ⟨by decide, by decide, by decide⟩
      · have hclass : isWordChar c = true ∨ allowedPunct.contains c = true ∨
            c = ' ' := by
          have hall2 := hall
          simp only [isAllowedChar, Bool.or_eq_true] at hall2
          rcases hall2 with (hw | hsp2) | hp
          · exact Or.inl hw
          · rcases collapseWsAux_mem _ false c hcm with h | h
            · exact Or.inr (Or.inr h)
            · rw [h] at hsp2
              exact absurd hsp2 (by simp)
          · exact Or.inr (Or.inl hp)
        refine ⟨?_, ?_, ?_⟩
        · rcases hclass with h | h | h
          · simp [h]
          · have hm2 : c ∈ allowedPunct := by simpa using h
            simp [hm2]
          · simp [h]
        · rcases hclass with h | h | h
          · intro hn; rw [hn] at h; exact absurd h (by decide)
          · intro hn; rw [hn] at h; exact absurd h (by decide)
          · rw [h]; decide
        · rcases hclass with h | h | h
          · intro hn; rw [hn] at h; exact absurd h (by decide)
          · intro hn; rw [hn] at h; exact absurd h (by decide)
          · rw [h]; decide
    · intro c hc
      rw [hdata] at hc
      unfold stripChars at hc
      rw [List.head?_reverse] at hc
      rcases dropWhile_getLast isPySpace
          (((cleanOcr (collapseWs
            (s.data.map fun c => if c == '\x00' then ' ' else c))).dropWhile
              isPySpace).reverse) with h | h
      · rw [h] at hc
        simp at hc
      · rw [h, List.getLast?_reverse] at hc
        exact dropWhile_head_not isPySpace _ c hc
    · intro c hc
      rw [hdata] at hc
      unfold stripChars at hc
      rw [List.getLast?_reverse] at hc
      exact dropWhile_head_not isPySpace _ c hc

/-- C8 witness: the amended statement at the ASCII input `"a\x00b"`. -/
theorem clean_text_spec_witness :
    (∀ c ∈ (clean_text "a\x00b").data,
        (isWordChar c || allowedPunct.contains c || (c == ' ')) = true ∧
          c ≠ '\n' ∧ c ≠ '\x00') ∧
      subTripleNl (collapseWs (("a\x00b").data.map
          fun c => if c == '\x00' then ' ' else c)) =
        collapseWs (("a\x00b").data.map fun c => if c == '\x00' then ' ' else c) ∧
      (∀ c, (clean_text "a\x00b").data.head? = some c → isPySpace c = false) ∧
      (∀ c, (clean_text "a\x00b").data.getLast? = some c → isPySpace c = false) :=
  clean_text_spec "a\x00b" (by decide)

/-!
### Ingestion (`ingest.ingest_document` and the `/ingest` endpoint)

The DMS metadata, the extractor output and the tokenizer-backed chunker
and token counter are parameters; the vector index is reduced to whether
the `limit = 1` scroll finds an existing chunk for the document.
-/

/-- The result dictionary of `ingest.ingest_document`. -/
structure IngestResult where
  doc_id : Nat
  title : String
  status : String
  chunks_created : Nat
  reason : Option String
  error : Option String
deriving DecidableEq, Repr

/-- One chunk-metadata dict built during ingestion. -/
structure IngestChunk where
  text : String
  doc_id : Nat
  title : String
  page : Option Nat
  file_type : String
  tags : List String
  token_count : Nat
deriving DecidableEq, Repr

/-- The chunk records built from the extracted pages: pages whose text
strips to nothing are skipped; each page is chunked and every chunk keeps
its page number. -/
def buildAllChunks (doc_id : Nat) (title file_type : String) (tags : List String)
    (pages : List (Option Nat × String)) (chunker : String → List String)
    (counter : String → Nat) : List IngestChunk :=
  (pages.filter fun pt => !(stripChars pt.2.data).isEmpty).flatMap fun pt =>
    (chunker pt.2).map fun t =>
      { text := t, doc_id := doc_id, title := title, page := pt.1,
        file_type := file_type, tags := tags, token_count := counter t }

/-- `ingest.ingest_document` (the success path stops at the result
dictionary; embedding and the upsert have no bearing on the result
fields). -/
def ingest_document (doc_id : Nat) (title file_type : String) (tags : List String)
    (hasExisting : Bool) (pages : List (Option Nat × String))
    (chunker : String → List String) (counter : String → Nat)
    (force_reindex : Bool) : IngestResult :=
  if !force_reindex && hasExisting then
    { doc_id := doc_id, title := title, status := "skipped", chunks_created := 0,
      reason := some "already_exists", error := none }
  else if pages.isEmpty then
    { doc_id := doc_id, title := title, status := "failed", chunks_created := 0,
      reason := some "no_text_extracted", error := none }
  else
    let all_chunks := buildAllChunks doc_id title file_type tags pages chunker counter
    if all_chunks.isEmpty then
      { doc_id := doc_id, title := title, status := "failed", chunks_created := 0,
        reason := some "no_chunks_created", error := none }
    else
      { doc_id := doc_id, title := title, status := "success",
        chunks_created := all_chunks.length, reason := none, error := none }

/-- An `HTTPException` as raised inside an endpoint body. -/
structure HTTPExc where
  status : Nat
  detail : String
deriving DecidableEq, Repr

/-- The `IngestResponse` model returned on success. -/
structure IngestResponse where
  message : String
  documents_processed : Nat
  chunks_created : Nat
deriving DecidableEq, Repr

/-- The client-visible outcome of the `/ingest` endpoint. -/
inductive IngestEndpointResult
  | ok (response : IngestResponse)
  | httpError (status : Nat) (detail : String)
deriving DecidableEq, Repr

/-- The body of `main.ingest_documents` inside its `try` block, for a
request with a truthy `doc_id`: a `success` result becomes the
`IngestResponse`; every other status — the `skipped`/`already_exists`
result included — raises HTTP 400 with the result's `error` field, which
a skip does not set. -/
def ingest_endpoint_try (doc_id : Nat) (result : IngestResult) :
    Except HTTPExc IngestResponse :=
  if result.status = "success" then
    .ok { message := "Successfully ingested document " ++ toString doc_id,
          documents_processed := 1, chunks_created := result.chunks_created }
  else
    .error { status := 400,
             detail := "Failed to ingest document " ++ toString doc_id ++ ": " ++
               result.error.getD "Unknown error" }

/-- `main.ingest_documents` for a request with a truthy `doc_id`: the
whole body sits in `try/except Exception`, and FastAPI's `HTTPException`
subclasses `Exception`, so the HTTP 400 raised inside is caught and
re-raised as HTTP 500 with detail `"Ingestion error: " + str(e)`.  The
rendering `str(e)` of the caught exception is starlette's and is taken
as a parameter (modern starlette renders the detail). -/
def ingest_endpoint (excStr : HTTPExc → String) (doc_id : Nat)
    (result : IngestResult) : IngestEndpointResult :=
  match ingest_endpoint_try doc_id result with
  | .ok r => .ok r
  | .error e => .httpError 500 ("Ingestion error: " ++ excStr e)

/-- `str(e)` for a starlette `HTTPException` (starlette ≥ 0.21 passes the
detail to `Exception.__init__`, so `str(e)` is the detail). -/
def strHTTPException (e : HTTPExc) : String := e.detail

/-- C3 counterexample: document 42 already has chunks; with
`force_reindex = false` the endpoint body raises
`HTTPException(400, "Failed to ingest document 42: Unknown error")`,
which the endpoint's own `except Exception` catches and re-raises, so the
client receives an HTTP 500 error `Ingestion error: ...` — never the
skipped response the claim asserts. -/
theorem ingest_skip_counterexample :
    ingest_endpoint strHTTPException 42
        (ingest_document 42 "T" "pdf" [] true [(some 1, "text")]
          (fun t => [t]) (fun _ => 1) false) =
      .httpError 500
        "Ingestion error: Failed to ingest document 42: Unknown error" := by
  rfl

/-- C3 (amended): for a document with at least one stored chunk and
`force_reindex = false`, `ingest_document` itself returns
`{status: skipped, reason: already_exists, chunks_created: 0}`; the
`/ingest` endpoint body turns this non-success result into
`HTTPException(400, "Failed to ingest document {id}: Unknown error")`,
and the endpoint's surrounding `except Exception` catches that and
re-raises, so — whatever starlette's exception rendering — the client
receives an HTTP 500 error `"Ingestion error: ..."`, not a skipped
response. -/
theorem ingest_skip_behaviour (doc_id : Nat) (title file_type : String)
    (tags : List String) (pages : List (Option Nat × String))
    (chunker : String → List String) (counter : String → Nat)
    (excStr : HTTPExc → String) :
    (ingest_document doc_id title file_type tags true pages chunker counter
        false).status = "skipped" ∧
      (ingest_document doc_id title file_type tags true pages chunker counter
        false).reason = some "already_exists" ∧
      (ingest_document doc_id title file_type tags true pages chunker counter
        false).chunks_created = 0 ∧
      ingest_endpoint_try doc_id (ingest_document doc_id title file_type tags
          true pages chunker counter false) =
        .error { status := 400,
                 detail := "Failed to ingest document " ++ toString doc_id ++
                   ": Unknown error" } ∧
      ingest_endpoint excStr doc_id (ingest_document doc_id title file_type
          tags true pages chunker counter false) =
        .httpError 500 ("Ingestion error: " ++ excStr
          { status := 400,
            detail := "Failed to ingest document " ++ toString doc_id ++
              ": Unknown error" }) := by
  have hres : ingest_document doc_id title file_type tags true pages chunker
      counter false =
      { doc_id := doc_id, title := title, status := "skipped", chunks_created := 0,
        reason := some "already_exists", error := none } := rfl
  have htry : ingest_endpoint_try doc_id (ingest_document doc_id title file_type
      tags true pages chunker counter false) =
      .error { status := 400,
               detail := "Failed to ingest document " ++ toString doc_id ++
                 ": Unknown error" } := by
    rw [hres]
    simp [ingest_endpoint_try, String.append_assoc]
  refine ⟨rfl, rfl, rfl, htry, ?_⟩
  rw [ingest_endpoint, htry]

/-!
### Point identity and upsert (`ingest.upsert_chunks_to_qdrant`)

`point_id = f"{doc_id}_{page}_{i}"` with `page = chunk.get('page', 0) or 0`
and `i` the enumeration index of the batch; the index's upsert replaces
points by id.
-/

/-- Decimal digit characters of `n`, least significant first; the fuel
argument (`n` itself at the top call) bounds the recursion and never runs
out because `n / 10 < n`. -/
def decDigitsRevF : Nat → Nat → List Char
  | _, 0 => []
  | 0, _ + 1 => []
  | fuel + 1, n + 1 =>
    Nat.digitChar ((n + 1) % 10) :: decDigitsRevF fuel ((n + 1) / 10)

/-- Python `str(n)` for a natural number (f-strings render integers in
decimal). -/
def natDecimal (n : Nat) : List Char :=
  if n = 0 then ['0'] else (decDigitsRevF n n).reverse

/-- The character content of the stored point id `f"{doc_id}_{page}_{i}"`. -/
def pointIdChars (doc_id page i : Nat) : List Char :=
  natDecimal doc_id ++ ('_' :: (natDecimal page ++ ('_' :: natDecimal i)))

/-- The stored point id. -/
def pointId (doc_id page i : Nat) : String :=
  String.mk (pointIdChars doc_id page i)

theorem decDigitsRevF_eq (fuel : Nat) :
    ∀ n : Nat, n ≤ fuel →
      decDigitsRevF fuel n = (Nat.digits 10 n).map Nat.digitChar := by
  induction fuel with
  | zero =>
    intro n hn
    have h0 : n = 0 := Nat.le_zero.mp hn
    subst h0
    simp [decDigitsRevF]
  | succ fuel ih =>
    intro n hn
    cases n with
    | zero => simp [decDigitsRevF]
    | succ m =>
      rw [decDigitsRevF, Nat.digits_def' (by norm_num : (1 : ℕ) < 10)
        (Nat.succ_pos m), List.map_cons]
      congr 1
      have hdiv : (m + 1) / 10 < m + 1 := Nat.div_lt_self (Nat.succ_pos m) (by norm_num)
      exact ih ((m + 1) / 10) (by omega)

theorem digitChar_ne_underscore : ∀ d < 10, Nat.digitChar d ≠ '_' := by decide

theorem digitChar_injOn :
    ∀ d < 10, ∀ e < 10, Nat.digitChar d = Nat.digitChar e → d = e := by decide

theorem natDecimal_no_underscore (n : Nat) : '_' ∉ natDecimal n := by
  unfold natDecimal
  by_cases h : n = 0
  · rw [if_pos h]
    decide
  · rw [if_neg h, decDigitsRevF_eq n n le_rfl]
    intro hmem
    rw [List.mem_reverse] at hmem
    rcases List.mem_map.mp hmem with ⟨d, hd, hdc⟩
    exact digitChar_ne_underscore d (Nat.digits_lt_base (by norm_num) hd) hdc

theorem map_digitChar_inj :
    ∀ xs ys : List Nat, (∀ d ∈ xs, d < 10) → (∀ d ∈ ys, d < 10) →
      xs.map Nat.digitChar = ys.map Nat.digitChar → xs = ys := by
  intro xs
  induction xs with
  | nil =>
    intro ys _ _ h
    cases ys with
    | nil => rfl
    | cons y yt => simp at h
  | cons x xt ih =>
    intro ys hx hy h
    cases ys with
    | nil => simp at h
    | cons y yt =>
      simp only [List.map_cons, List.cons.injEq] at h
      have hxy : x = y :=
        digitChar_injOn x (hx x (by simp)) y (hy y (by simp)) h.1
      rw [hxy, ih yt (fun d hd => hx d (by simp [hd]))
        (fun d hd => hy d (by simp [hd])) h.2]

theorem natDecimal_inj (a b : Nat) (h : natDecimal a = natDecimal b) : a = b := by
  have key : ∀ m : Nat, m ≠ 0 → natDecimal m ≠ ['0'] := by
    intro m hm hcon
    have hd : natDecimal m = ((Nat.digits 10 m).map Nat.digitChar).reverse := by
      unfold natDecimal
      rw [if_neg hm, decDigitsRevF_eq m m le_rfl]
    rw [hd] at hcon
    have hlen : (Nat.digits 10 m).length = 1 := by
      have := congrArg List.length hcon
      simpa using this
    rcases List.length_eq_one.mp hlen with ⟨d, hdig⟩
    rw [hdig] at hcon
    simp only [List.map_cons, List.map_nil, List.reverse_cons, List.reverse_nil,
      List.nil_append, List.cons.injEq, and_true] at hcon
    have hdlt : d < 10 := Nat.digits_lt_base (by norm_num) (by rw [hdig]; simp)
    have hd0 : d = 0 := digitChar_injOn d hdlt 0 (by norm_num) (by simpa using hcon)
    have hm0 : m = 0 := by
      have hof := Nat.ofDigits_digits 10 m
      rw [hdig, hd0] at hof
      simpa [Nat.ofDigits] using hof.symm
    exact hm hm0
  by_cases ha : a = 0 <;> by_cases hb : b = 0
  · rw [ha, hb]
  · exfalso
    apply key b hb
    rw [← h]
    unfold natDecimal
    rw [if_pos ha]
  · exfalso
    apply key a ha
    rw [h]
    unfold natDecimal
    rw [if_pos hb]
  · have hda : natDecimal a = ((Nat.digits 10 a).map Nat.digitChar).reverse := by
      unfold natDecimal
      rw [if_neg ha, decDigitsRevF_eq a a le_rfl]
    have hdb : natDecimal b = ((Nat.digits 10 b).map Nat.digitChar).reverse := by
      unfold natDecimal
      rw [if_neg hb, decDigitsRevF_eq b b le_rfl]
    rw [hda, hdb] at h
    have h2 := List.reverse_injective h
    have h3 : Nat.digits 10 a = Nat.digits 10 b :=
      map_digitChar_inj _ _ (fun d hd => Nat.digits_lt_base (by norm_num) hd)
        (fun d hd => Nat.digits_lt_base (by norm_num) hd) h2
    calc a = Nat.ofDigits 10 (Nat.digits 10 a) := (Nat.ofDigits_digits 10 a).symm
      _ = Nat.ofDigits 10 (Nat.digits 10 b) := by rw [h3]
      _ = b := Nat.ofDigits_digits 10 b

theorem underscore_split :
    ∀ xs xs' ys ys' : List Char, '_' ∉ xs → '_' ∉ xs' →
      xs ++ '_' :: ys = xs' ++ '_' :: ys' → xs = xs' ∧ ys = ys' := by
  intro xs
  induction xs with
  | nil =>
    intro xs' ys ys' _ hx' h
    cases xs' with
    | nil => simpa using h
    | cons a t =>
      simp only [List.nil_append, List.cons_append, List.cons.injEq] at h
      exact absurd (by simp [← h.1] : '_' ∈ a :: t) hx'
  | cons a t ih =>
    intro xs' ys ys' hx hx' h
    cases xs' with
    | nil =>
      simp only [List.nil_append, List.cons_append, List.cons.injEq] at h
      exact absurd (by simp [h.1] : '_' ∈ a :: t) hx
    | cons b t' =>
      simp only [List.cons_append, List.cons.injEq] at h
      have hrec := ih t' ys ys' (fun hm => hx (by simp [hm]))
        (fun hm => hx' (by simp [hm])) h.2
      exact ⟨by rw [h.1, hrec.1], hrec.2⟩

theorem pointIdChars_inj (d p i d' p' i' : Nat)
    (h : pointIdChars d p i = pointIdChars d' p' i') :
    d = d' ∧ p = p' ∧ i = i' := by
  unfold pointIdChars at h
  obtain ⟨h1, h2⟩ := underscore_split _ _ _ _ (natDecimal_no_underscore d)
    (natDecimal_no_underscore d') h
  obtain ⟨h3, h4⟩ := underscore_split _ _ _ _ (natDecimal_no_underscore p)
    (natDecimal_no_underscore p') h2
  exact ⟨natDecimal_inj _ _ h1, natDecimal_inj _ _ h3, natDecimal_inj _ _ h4⟩

theorem pointId_inj (d p i d' p' i' : Nat)
    (h : pointId d p i = pointId d' p' i') : d = d' ∧ p = p' ∧ i = i' :=
  pointIdChars_inj d p i d' p' i' (congrArg String.data h)

/-- A stored point: id, chunk payload, vector. -/
abbrev QPoint := String × IngestChunk × List ℚ

/-- `upsert_chunks_to_qdrant`: zip chunks with vectors and assign each
point the id from `(doc_id, page or 0, index)`; a count mismatch raises
`ValueError`. -/
def upsert_chunks_points (chunks : List IngestChunk) (vectors : List (List ℚ)) :
    Except String (List QPoint) :=
  if chunks.length ≠ vectors.length then
    .error "Number of chunks must match number of vectors"
  else
    .ok ((chunks.zip vectors).enum.map fun pr =>
      (pointId pr.2.1.doc_id (pr.2.1.page.getD 0) pr.1, pr.2))

/-- One point upsert into the collection (modelled as an association list
keyed by id): replace the payload of an existing id, else append. -/
def upsertPoint (coll : List QPoint) (pt : QPoint) : List QPoint :=
  if coll.any fun kv => kv.1 == pt.1 then
    coll.map fun kv => if kv.1 == pt.1 then pt else kv
  else coll ++ [pt]

/-- The collection after upserting a batch of points. -/
def upsertPoints (coll : List QPoint) (pts : List QPoint) : List QPoint :=
  pts.foldl upsertPoint coll

/-- Whether the collection holds a point with the given id. -/
def hasKey (coll : List QPoint) (key : String) : Bool :=
  coll.any fun kv => kv.1 == key

theorem upsertPoint_length_of_hasKey (coll : List QPoint) (pt : QPoint)
    (h : hasKey coll pt.1 = true) :
    (upsertPoint coll pt).length = coll.length := by
  unfold hasKey at h
  unfold upsertPoint
  rw [if_pos h, List.length_map]

theorem upsertPoint_hasKey_mono (coll : List QPoint) (pt : QPoint) (key : String)
    (h : hasKey coll key = true) : hasKey (upsertPoint coll pt) key = true := by
  unfold hasKey at h ⊢
  unfold upsertPoint
  rcases List.any_eq_true.mp h with ⟨kv, hkv, hbeq⟩
  by_cases hc : coll.any fun kv => kv.1 == pt.1
  · rw [if_pos hc]
    apply List.any_eq_true.mpr
    by_cases he : (kv.1 == pt.1) = true
    · refine ⟨pt, List.mem_map.mpr ⟨kv, hkv, by rw [if_pos he]⟩, ?_⟩
      have h1 : kv.1 = pt.1 := by simpa using he
      have h2 : kv.1 = key := by simpa using hbeq
      simp [← h1, h2]
    · exact ⟨kv, List.mem_map.mpr ⟨kv, hkv, by rw [if_neg he]⟩, hbeq⟩
  · rw [if_neg hc]
    exact List.any_eq_true.mpr ⟨kv, List.mem_append_left _ hkv, hbeq⟩

theorem upsertPoint_hasKey_self (coll : List QPoint) (pt : QPoint) :
    hasKey (upsertPoint coll pt) pt.1 = true := by
  unfold hasKey upsertPoint
  by_cases hc : coll.any fun kv => kv.1 == pt.1
  · rw [if_pos hc]
    rcases List.any_eq_true.mp hc with ⟨kv, hkv, hbeq⟩
    exact List.any_eq_true.mpr
      ⟨pt, List.mem_map.mpr ⟨kv, hkv, by rw [if_pos hbeq]⟩, by simp⟩
  · rw [if_neg hc]
    exact List.any_eq_true.mpr ⟨pt, List.mem_append_right _ (by simp), by simp⟩

theorem upsertPoints_hasKey_mono (pts : List QPoint) :
    ∀ (coll : List QPoint) (key : String), hasKey coll key = true →
      hasKey (upsertPoints coll pts) key = true := by
  induction pts with
  | nil => intro coll key h; exact h
  | cons p rest ih =>
    intro coll key h
    exact ih (upsertPoint coll p) key (upsertPoint_hasKey_mono coll p key h)

theorem upsertPoints_hasKey_all (pts : List QPoint) :
    ∀ (coll : List QPoint) (pt : QPoint), pt ∈ pts →
      hasKey (upsertPoints coll pts) pt.1 = true := by
  induction pts with
  | nil => intro coll pt h; simp at h
  | cons p rest ih =>
    intro coll pt h
    rcases List.mem_cons.mp h with h1 | h1
    · subst h1
      exact upsertPoints_hasKey_mono rest (upsertPoint coll pt) pt.1
        (upsertPoint_hasKey_self coll pt)
    · exact ih (upsertPoint coll p) pt h1

theorem upsertPoints_length_of_all (pts : List QPoint) :
    ∀ coll : List QPoint, (∀ pt ∈ pts, hasKey coll pt.1 = true) →
      (upsertPoints coll pts).length = coll.length := by
  induction pts with
  | nil => intro coll _; rfl
  | cons p rest ih =>
    intro coll h
    have h2 := upsertPoint_length_of_hasKey coll p (h p (by simp))
    have h3 : ∀ pt ∈ rest, hasKey (upsertPoint coll p) pt.1 = true :=
      fun pt hpt => upsertPoint_hasKey_mono coll p pt.1 (h pt (by simp [hpt]))
    calc (upsertPoints coll (p :: rest)).length
        = (upsertPoints (upsertPoint coll p) rest).length := rfl
      _ = (upsertPoint coll p).length := ih (upsertPoint coll p) h3
      _ = coll.length := h2

/-- C7: the stored point id is a function of
`(doc_id, page or 0, chunk_index)` alone and injective in that triple; the
points of one upsert call therefore have pairwise distinct ids; and
re-upserting the same point batch replaces the existing points, leaving
the collection's point count unchanged. -/
theorem chunk_id_spec :
    (∀ d p i d' p' i', pointId d p i = pointId d' p' i' →
        d = d' ∧ p = p' ∧ i = i') ∧
      (∀ (chunks : List IngestChunk) (vectors : List (List ℚ))
          (pts : List QPoint),
        upsert_chunks_points chunks vectors = .ok pts →
          (pts.map Prod.fst).Nodup) ∧
      (∀ coll pts : List QPoint,
        (upsertPoints (upsertPoints coll pts) pts).length =
          (upsertPoints coll pts).length) := by
  refine ⟨pointId_inj, ?_, ?_⟩
  · intro chunks vectors pts h
    unfold upsert_chunks_points at h
    by_cases hlen : chunks.length ≠ vectors.length
    · rw [if_pos hlen] at h
      cases h
    · rw [if_neg hlen] at h
      injection h with hpts
      subst hpts
      rw [List.map_map]
      have henum : ((chunks.zip vectors).enum).Nodup :=
        List.Nodup.of_map Prod.fst (List.nodup_enum_map_fst _)
      apply List.Nodup.map_on ?_ henum
      intro x hx y hy hf
      have hidx := (pointId_inj _ _ _ _ _ _ hf).2.2
      exact List.inj_on_of_nodup_map (List.nodup_enum_map_fst _) hx hy hidx
  · intro coll pts
    exact upsertPoints_length_of_all pts (upsertPoints coll pts)
      (fun pt hpt => upsertPoints_hasKey_all pts coll pt hpt)

/-- A concrete ingestion chunk for the C7 witness. -/
def ingChunkA : IngestChunk :=
  { text := "alpha", doc_id := 1, title := "A", page := some 2,
    file_type := "pdf", tags := [], token_count := 1 }

/-- C7 witness: the three parts applied at concrete inputs. -/
theorem chunk_id_spec_witness :
    (1 = 1 ∧ 2 = 2 ∧ 0 = 0) ∧
      (([(pointId 1 2 0, ingChunkA, [(1 : ℚ)])].map Prod.fst).Nodup) ∧
      ((upsertPoints (upsertPoints [] [(pointId 1 2 0, ingChunkA, [(1 : ℚ)])])
          [(pointId 1 2 0, ingChunkA, [(1 : ℚ)])]).length =
        (upsertPoints [] [(pointId 1 2 0, ingChunkA, [(1 : ℚ)])]).length) :=
  ⟨chunk_id_spec.1 1 2 0 1 2 0 rfl,
    chunk_id_spec.2.1 [ingChunkA] [[1]] _ rfl,
    chunk_id_spec.2.2 [] _⟩

end PaperlessRag
